import Mathlib

/-!
Verification of the ALICE-Font core (stroke/pen model, SDF rasterizer, atlas
cache) against its natural-language specification.

Modelling conventions, used consistently below:

* Rust `f32` scalars are modelled as exact rationals (`ℚ`).  The claims
  settled here are about control flow, cache bookkeeping and exact algebraic
  identities, none of which depend on `f32` rounding; where a definition
  contains an `f32` literal (`1e-6`, `core::f32::consts::PI`, the polynomial
  coefficients of `atan2_approx`) it is transcribed as the corresponding
  rational.
* Rust `u32`/`usize` counters are modelled as `Nat`.  `SdfAtlas::clock` is a
  `u32` that the code only ever increments by one; theorems that depend on
  the LRU scan sentinel `u32::MAX` carry the explicit hypothesis that every
  stored timestamp is at most `u32Max`.
* `Vec<f32>` pixel buffers and the `[f32; 1024]` SDF tile are modelled as
  total functions `Nat → ℚ`; the loops that write them become pointwise
  functional updates performed in the same order as the source loops.
* `fast_sqrt_glyph` / `fast_sqrt_stroke` (the Quake bit-manipulation inverse
  square root) manipulate the IEEE-754 bit pattern of an `f32` and therefore
  have no exact shallow embedding over ℚ.  The rasterizer is embedded with
  the square-root kernel as an explicit function parameter `fsq : ℚ → ℚ`;
  theorems quantify over it (they hold for every kernel) or instantiate it
  with `ratSqrt`, an executable integer-Newton square root that is exact on
  squares of rationals — at every point where a concrete evaluation below
  depends on the kernel's value, the argument is a perfect square of a
  rational, so `ratSqrt` returns exactly what an exact square root would,
  and the real `fast_sqrt_glyph` (relative error ≈ 4.7e-7) is far closer to
  that value than any decision margin used.
-/

namespace AliceFont

/-! ### Geometry primitives (src/stroke.rs) -/

/-- `Point2` (src/stroke.rs): an (x, y) pair in em-space. -/
@[ext]
structure Point2 where
  x : ℚ
  y : ℚ
deriving DecidableEq

/-- `Point2::lerp`. -/
def Point2.lerp (a b : Point2) (t : ℚ) : Point2 :=
  ⟨a.x + (b.x - a.x) * t, a.y + (b.y - a.y) * t⟩

/-- `f32::MAX` = (2 − 2⁻²³)·2¹²⁷ = (2²⁴ − 1)·2¹⁰⁴, as an exact rational
(written as the explicit numeral so that it evaluates in the kernel). -/
def f32Max : ℚ := 340282346638528859811704183484516925440

/-- `f32::MIN` (most negative finite `f32`) = −`f32::MAX`. -/
def f32MinVal : ℚ := -f32Max

/-- `core::f32::consts::PI`: the `f32` nearest to π, bit pattern 0x40490FDB. -/
def f32Pi : ℚ := 13176795 / 4194304

/-- `core::f32::consts::FRAC_PI_2`: the `f32` nearest to π/2 (same mantissa as
`PI`, exponent one lower), so it equals `f32Pi / 2` exactly. -/
def f32HalfPi : ℚ := 13176795 / 8388608

/-- Truncation toward zero, the rounding used by Rust's `%` on floats. -/
def ratTrunc (q : ℚ) : ℤ :=
  if q < 0 then -((-q).floor) else q.floor

/-- Rust's `%` on floats: `x - y * (x / y).trunc()`. -/
def rrem (x y : ℚ) : ℚ :=
  x - y * ((ratTrunc (x / y) : ℤ) : ℚ)

/-- `sin_approx_stroke` (src/stroke.rs): range reduction into [0, 2π), sign
split at π, then the Bhaskara-style rational approximation. -/
def sinApprox (x : ℚ) : ℚ :=
  let x1 := rrem x (2 * f32Pi)
  let x2 := if x1 < 0 then x1 + 2 * f32Pi else x1
  let sign : ℚ := if x2 > f32Pi then -1 else 1
  let x3 := if x2 > f32Pi then x2 - f32Pi else x2
  let num := 16 * x3 * (f32Pi - x3)
  let den := 5 * f32Pi * f32Pi - 4 * x3 * (f32Pi - x3)
  sign * num / den

/-- `atan2_approx` (src/stroke.rs): octant reduction plus a cubic polynomial
in `s = a²`; the literals `1e-10`, `-0.0464964749`, `0.15931422`,
`0.327622764` are transcribed as exact decimals. -/
def atan2Approx (y x : ℚ) : ℚ :=
  if |x| < 1 / 10000000000 ∧ |y| < 1 / 10000000000 then 0
  else if |x| < 1 / 10000000000 then (if y > 0 then f32HalfPi else -f32HalfPi)
  else
    let ax := if x < 0 then -x else x
    let ay := if y < 0 then -y else y
    let mn := if ax < ay then ax else ay
    let mx := if ax > ay then ax else ay
    let a := mn / mx
    let s := a * a
    let r := ((-(464964749 / 10000000000) * s + 15931422 / 100000000) * s
              - 327622764 / 1000000000) * s * a + a
    let r1 := if ay > ax then f32HalfPi - r else r
    let r2 := if x < 0 then f32Pi - r1 else r1
    if y < 0 then -r2 else r2

/-! ### Font parameters (src/param.rs) -/

/-- `MetaFontParams` (src/param.rs): the 10-field parametric font descriptor. -/
structure MetaFontParams where
  weight : ℚ
  width : ℚ
  serif : ℚ
  contrast : ℚ
  slant : ℚ
  xHeight : ℚ
  capHeight : ℚ
  ascender : ℚ
  descender : ℚ
  roundness : ℚ
deriving DecidableEq

/-- `MetaFontParams::mono_regular`. -/
def MetaFontParams.monoRegular : MetaFontParams :=
  ⟨2/5, 3/5, 1/2, 0, 0, 53/100, 7/10, 4/5, 1/4, 0⟩

/-- `MetaFontParams::sans_regular`. -/
def MetaFontParams.sansRegular : MetaFontParams :=
  ⟨9/20, 1, 0, 3/20, 0, 13/25, 18/25, 4/5, 11/50, 3/10⟩

/-- `MetaFontParams::sans_bold`. -/
def MetaFontParams.sansBold : MetaFontParams :=
  ⟨3/4, 51/50, 0, 1/10, 0, 27/50, 18/25, 4/5, 11/50, 3/10⟩

/-- `MetaFontParams::stroke_half_width`: `0.01 + weight * 0.08`. -/
def MetaFontParams.strokeHalfWidth (p : MetaFontParams) : ℚ :=
  1 / 100 + p.weight * (8 / 100)

/-! ### Pen model (src/stroke.rs) -/

/-- `PenModel` (src/stroke.rs). -/
structure PenModel where
  baseWidth : ℚ
  contrast : ℚ
  penAngle : ℚ
  roundness : ℚ
deriving DecidableEq

/-- `PenModel::from_params`: `pen_angle` is the literal `0.5`. -/
def PenModel.fromParams (p : MetaFontParams) : PenModel :=
  ⟨p.strokeHalfWidth, p.contrast, 1/2, p.roundness⟩

/-- `PenModel::half_width_at_angle`:
`base_width * (1 - contrast * sin_val * sin_val)`. -/
def PenModel.halfWidthAtAngle (p : PenModel) (directionAngle : ℚ) : ℚ :=
  let s := sinApprox (directionAngle - p.penAngle)
  p.baseWidth * (1 - p.contrast * s * s)

/-- `PenModel::half_width`: convert the tangent to an angle, then evaluate. -/
def PenModel.halfWidth (p : PenModel) (tangent : Point2) : ℚ :=
  p.halfWidthAtAngle (atan2Approx tangent.y tangent.x)

/-! ### Strokes (src/stroke.rs) -/

/-- `Stroke` (src/stroke.rs): a cubic Bezier given by four control points. -/
structure Stroke where
  p0 : Point2
  p1 : Point2
  p2 : Point2
  p3 : Point2
deriving DecidableEq

/-- `Stroke::line`: a straight line as a degenerate cubic with inner control
points at 1/3 and 2/3 along the segment. -/
def Stroke.line (s e : Point2) : Stroke :=
  ⟨s, s.lerp e (1/3), s.lerp e (2/3), e⟩

/-- `Stroke::position`: Bernstein-basis cubic evaluation.  The source's local
temporaries `t2, t3, mt, mt2, mt3` are inlined. -/
def Stroke.position (s : Stroke) (t : ℚ) : Point2 :=
  ⟨(1-t)*(1-t)*(1-t) * s.p0.x + 3*((1-t)*(1-t))*t * s.p1.x
     + 3*(1-t)*(t*t) * s.p2.x + t*t*t * s.p3.x,
   (1-t)*(1-t)*(1-t) * s.p0.y + 3*((1-t)*(1-t))*t * s.p1.y
     + 3*(1-t)*(t*t) * s.p2.y + t*t*t * s.p3.y⟩

/-- `Stroke::tangent`: first derivative of the cubic. -/
def Stroke.tangent (s : Stroke) (t : ℚ) : Point2 :=
  ⟨3*((1-t)*(1-t)) * (s.p1.x - s.p0.x) + 6*(1-t)*t * (s.p2.x - s.p1.x)
     + 3*(t*t) * (s.p3.x - s.p2.x),
   3*((1-t)*(1-t)) * (s.p1.y - s.p0.y) + 6*(1-t)*t * (s.p2.y - s.p1.y)
     + 3*(t*t) * (s.p3.y - s.p2.y)⟩

/-! ### Glyph SDF tile (src/glyph/mod.rs) -/

/-- `GLYPH_SDF_SIZE` = 32. -/
def glyphSdfSize : Nat := 32

/-- `GlyphSdf` (src/glyph/mod.rs): the `[f32; 32*32]` array is modelled as a
total function from the flat index `y * 32 + x`. -/
structure GlyphSdf where
  data : Nat → ℚ
  advance : ℚ
  lsb : ℚ
  bboxMin : Point2
  bboxMax : Point2

/-- `GlyphSdf::empty`: all samples `1.0` (fully outside), advance `0.5`. -/
def GlyphSdf.emptySdf : GlyphSdf :=
  ⟨fun _ => 1, 1/2, 0, ⟨0, 0⟩, ⟨1, 1⟩⟩

/-- `usize::MAX` (saturation bound of Rust's float-to-`usize` `as` cast). -/
def usizeMax : Nat := 18446744073709551615

/-- Rust's `as usize` cast on a (finite, non-NaN) float: truncate toward
zero, saturating at 0 below and at `usize::MAX` above. -/
def castUsize (q : ℚ) : Nat :=
  if q ≤ 0 then 0 else min q.floor.toNat usizeMax

/-- The index computation of `GlyphSdf::sample` for one coordinate:
`(u * (GLYPH_SDF_SIZE - 1)) as usize`, then clamp to `GLYPH_SDF_SIZE - 1`
when it is `>= GLYPH_SDF_SIZE`.  The source performs this identically for
`u` and `v`. -/
def sampleIdx (u : ℚ) : Nat :=
  let i := castUsize (u * 31)
  if i ≥ 32 then 31 else i

/-- `GlyphSdf::sample`: nearest-sample lookup at `data[y * 32 + x]`. -/
def GlyphSdf.sample (sdf : GlyphSdf) (u v : ℚ) : ℚ :=
  sdf.data (sampleIdx v * 32 + sampleIdx u)

/-- `GlyphSdf::is_inside`: `sample(u, v) < 0.0`. -/
def GlyphSdf.isInside (sdf : GlyphSdf) (u v : ℚ) : Bool :=
  decide (sdf.sample u v < 0)

/-- `GlyphSkeleton` (src/glyph/mod.rs): the fixed `[Stroke; 16]` array plus
`stroke_count` is modelled as the list of the `stroke_count` used strokes. -/
structure GlyphSkeleton where
  strokes : List Stroke
  advance : ℚ

/-! ### Rasterizer (src/glyph/mod.rs, `GlyphGenerator::rasterize_sdf`) -/

/-- Accumulator of `compute_bbox`'s four running extrema. -/
structure BBox4 where
  minX : ℚ
  minY : ℚ
  maxX : ℚ
  maxY : ℚ

/-- One conditional update `if p.x < min_x { min_x = p.x }`. -/
def updMin (a b : ℚ) : ℚ := if b < a then b else a

/-- One conditional update `if p.x > max_x { max_x = p.x }`. -/
def updMax (a b : ℚ) : ℚ := if b > a then b else a

/-- The inner 9-sample loop of `compute_bbox` for one stroke
(`t = t_step / 8`, `t_step = 0..=8`). -/
def bboxScanStroke (s : Stroke) (acc : BBox4) : BBox4 :=
  (List.range 9).foldl
    (fun a j =>
      let p := s.position ((j : ℚ) / 8)
      ⟨updMin a.minX p.x, updMin a.minY p.y, updMax a.maxX p.x, updMax a.maxY p.y⟩)
    acc

/-- `GlyphGenerator::compute_bbox`: extrema over 9 uniform samples of every
stroke, starting from `(f32::MAX, f32::MAX, f32::MIN, f32::MIN)`. -/
def computeBbox (skel : GlyphSkeleton) : Point2 × Point2 :=
  let acc := skel.strokes.foldl (fun a s => bboxScanStroke s a)
    ⟨f32Max, f32Max, f32MinVal, f32MinVal⟩
  (⟨acc.minX, acc.minY⟩, ⟨acc.maxX, acc.maxY⟩)

/-- `bbox_min` after padding by `3 * base_width` in `rasterize_sdf`. -/
def paddedBBMin (pen : PenModel) (skel : GlyphSkeleton) : Point2 :=
  ⟨(computeBbox skel).1.x - pen.baseWidth * 3, (computeBbox skel).1.y - pen.baseWidth * 3⟩

/-- `bbox_max` after padding by `3 * base_width` in `rasterize_sdf`. -/
def paddedBBMax (pen : PenModel) (skel : GlyphSkeleton) : Point2 :=
  ⟨(computeBbox skel).2.x + pen.baseWidth * 3, (computeBbox skel).2.y + pen.baseWidth * 3⟩

/-- `w = bbox_max.x - bbox_min.x` in `rasterize_sdf`. -/
def paddedW (pen : PenModel) (skel : GlyphSkeleton) : ℚ :=
  (paddedBBMax pen skel).x - (paddedBBMin pen skel).x

/-- `h = bbox_max.y - bbox_min.y` in `rasterize_sdf`. -/
def paddedH (pen : PenModel) (skel : GlyphSkeleton) : ℚ :=
  (paddedBBMax pen skel).y - (paddedBBMin pen skel).y

/-- World position of pixel `(px, py)`:
`u = px * (1 / (size - 1))`, `px_world = bbox_min.x + u * w` (and likewise
for `v`/`y`). -/
def pixelWorld (bmin : Point2) (w h : ℚ) (px py : Nat) : Point2 :=
  ⟨bmin.x + ((px : ℚ) * (1 / 31)) * w, bmin.y + ((py : ℚ) * (1 / 31)) * h⟩

/-- The 17 per-stroke sample values for one pixel: the source precomputes
`(sx, sy, shw)` at `t = i / 16`, `i = 0..=16`, once per stroke, then the
pixel loop forms `fast_sqrt_glyph(dx*dx + dy*dy) - shw`.  Precomputation and
per-pixel recomputation of the same pure expressions are value-equal; `fsq`
is the square-root kernel parameter (see the header). -/
def strokeSampleVals (fsq : ℚ → ℚ) (pen : PenModel) (pw : Point2) (s : Stroke) : List ℚ :=
  (List.range 17).map (fun i =>
    let t : ℚ := (i : ℚ) / 16
    let pt := s.position t
    let hw := pen.halfWidth (s.tangent t)
    let dx := pw.x - pt.x
    let dy := pw.y - pt.y
    fsq (dx * dx + dy * dy) - hw)

/-- The inner sample loop of `rasterize_sdf` with its early exit:
`if dist < min_dist { min_dist = dist; if min_dist < 0.0 { break; } }`. -/
def scanSamplesEarly : List ℚ → ℚ → ℚ
  | [], m => m
  | d :: rest, m =>
      if d < m then (if d < 0 then d else scanSamplesEarly rest d)
      else scanSamplesEarly rest m

/-- The stroke loop of `rasterize_sdf` with its cross-stroke early exit:
after each stroke, `if min_dist < -(base_width * 2.0) { break 'stroke_loop }`
(`cut` is `base_width * 2`). -/
def scanStrokesEarly (cut : ℚ) : List (List ℚ) → ℚ → ℚ
  | [], m => m
  | s :: rest, m =>
      let m1 := scanSamplesEarly s m
      if m1 < -cut then m1 else scanStrokesEarly cut rest m1

/-- The value `rasterize_sdf` stores at pixel `(px, py)` (non-degenerate
branch): both loops run over the per-(stroke, sample) values, starting at
`f32::MAX`. -/
def rasterizePixel (fsq : ℚ → ℚ) (pen : PenModel) (skel : GlyphSkeleton)
    (bmin : Point2) (w h : ℚ) (px py : Nat) : ℚ :=
  scanStrokesEarly (pen.baseWidth * 2)
    (skel.strokes.map (strokeSampleVals fsq pen (pixelWorld bmin w h px py)))
    f32Max

/-- `GlyphGenerator::rasterize_sdf`: bbox, padding, the `w < 1e-6 || h < 1e-6`
degenerate early return of the (mutated) `GlyphSdf::empty`, else the pixel
grid.  `data` is the flat array `data[py * 32 + px]`, modelled as a function
of the flat index. -/
def rasterizeSdf (fsq : ℚ → ℚ) (pen : PenModel) (skel : GlyphSkeleton) : GlyphSdf :=
  let bmin := paddedBBMin pen skel
  let bmax := paddedBBMax pen skel
  let w := paddedW pen skel
  let h := paddedH pen skel
  if paddedW pen skel < 1 / 1000000 ∨ paddedH pen skel < 1 / 1000000 then
    { GlyphSdf.emptySdf with advance := skel.advance, bboxMin := bmin, bboxMax := bmax }
  else
    { data := fun idx => rasterizePixel fsq pen skel bmin w h (idx % 32) (idx / 32),
      advance := skel.advance, lsb := 0, bboxMin := bmin, bboxMax := bmax }

/-- `GlyphGenerator::distance_to_stroke` (the naive per-stroke computation the
spec compares against): minimum of `fast_sqrt(dx*dx+dy*dy) - hw` over the 17
uniform samples, starting from `f32::MAX`, no early exit. -/
def distanceToStroke (fsq : ℚ → ℚ) (pen : PenModel) (p : Point2) (s : Stroke) : ℚ :=
  (strokeSampleVals fsq pen p s).foldl (fun m d => if d < m then d else m) f32Max

/-- The naive pixel value described by the spec: the minimum of
`distance_to_stroke` over all strokes. -/
def naivePixel (fsq : ℚ → ℚ) (pen : PenModel) (skel : GlyphSkeleton)
    (bmin : Point2) (w h : ℚ) (px py : Nat) : ℚ :=
  skel.strokes.foldl
    (fun m s => let d := distanceToStroke fsq pen (pixelWorld bmin w h px py) s
                if d < m then d else m)
    f32Max

/-- The full naive SDF grid (same bbox handling as `rasterize_sdf`, but with
the un-optimized per-pixel minimum).  This is the spec-side definition used
to state the refinement claim about the early-exit optimizations. -/
def naiveSdfData (fsq : ℚ → ℚ) (pen : PenModel) (skel : GlyphSkeleton) (idx : Nat) : ℚ :=
  if paddedW pen skel < 1 / 1000000 ∨ paddedH pen skel < 1 / 1000000 then 1
  else naivePixel fsq pen skel (paddedBBMin pen skel)
        (paddedW pen skel) (paddedH pen skel) (idx % 32) (idx / 32)

/-! ### An executable square-root kernel instance -/

/-- Integer Newton iteration for the square root, with structural fuel.
Used only to instantiate the abstract kernel `fsq` at concrete inputs. -/
def isqrtAux : Nat → Nat → Nat → Nat
  | 0, _, g => g
  | fuel + 1, n, g =>
      if g = 0 then 0
      else
        let nxt := (g + n / g) / 2
        if nxt < g then isqrtAux fuel n nxt else g

/-- Integer square root via Newton iteration (128 steps of fuel suffice for
every input below 2¹²⁸). -/
def isqrtNat (n : Nat) : Nat :=
  if n ≤ 1 then n else isqrtAux 128 n (n / 2)

/-- Executable square-root stand-in for `fast_sqrt_glyph`: exact whenever the
argument is the square of a rational (in lowest terms `a²/b²`, the value is
`a·b`-rooted exactly), and `0` on non-positive input exactly as the source
returns `0.0` for `x <= 0.0`. -/
def ratSqrt (x : ℚ) : ℚ :=
  if x ≤ 0 then 0 else (isqrtNat (x.num.toNat * x.den) : ℚ) / (x.den : ℚ)

/-! ### Atlas cache (src/atlas.rs) -/

/-- `MAX_ATLAS_DIM` = 16. -/
def maxAtlasDim : Nat := 16

/-- `u32::MAX`, the sentinel that starts the LRU scan in `find_slot`. -/
def u32Max : Nat := 4294967295

/-- `AtlasEntry` (src/atlas.rs). -/
structure AtlasEntry where
  codepoint : Char
  tileX : Nat
  tileY : Nat
  uvX : ℚ
  uvY : ℚ
  uvW : ℚ
  uvH : ℚ
  advance : ℚ
  lsb : ℚ
  lastUsed : Nat
deriving DecidableEq

/-- `SdfAtlas` (src/atlas.rs).  `pixels` is the flat `Vec<f32>` as a function
of the flat index; `gen` abstracts the owned `GlyphGenerator` as the function
`u8 ↦ GlyphGenerator::generate(u8)` (the generator's internals are settled
separately by the rasterizer theorems; the atlas code treats it as a black
box that produces a `GlyphSdf`). -/
structure SdfAtlas where
  dim : Nat
  pixels : Nat → ℚ
  entries : List (Option AtlasEntry)
  params : MetaFontParams
  gen : Nat → GlyphSdf
  clock : Nat
  occupied : Nat

/-- `SdfAtlas::new`: clamp `dim` at `MAX_ATLAS_DIM`, zero pixels, empty
entry table, zero clock and occupancy. -/
def SdfAtlas.new (dim : Nat) (params : MetaFontParams) (g : Nat → GlyphSdf) : SdfAtlas :=
  let d := if dim > maxAtlasDim then maxAtlasDim else dim
  ⟨d, fun _ => 0, List.replicate (d * d) none, params, g, 0, 0⟩

/-- `SdfAtlas::texture_size`. -/
def SdfAtlas.textureSize (st : SdfAtlas) : Nat := st.dim * glyphSdfSize

/-- `SdfAtlas::capacity`. -/
def SdfAtlas.capacity (st : SdfAtlas) : Nat := st.dim * st.dim

/-- `SdfAtlas::clear`: every slot to `None`, every pixel to `0.0`, occupancy
and clock to zero. -/
def SdfAtlas.clear (st : SdfAtlas) : SdfAtlas :=
  { st with entries := st.entries.map (fun _ => none),
            pixels := fun _ => 0,
            occupied := 0,
            clock := 0 }

/-- `SdfAtlas::set_params`: replace the parameters and the generator, then
`clear()`. -/
def SdfAtlas.setParams (st : SdfAtlas) (p : MetaFontParams) (g : Nat → GlyphSdf) : SdfAtlas :=
  SdfAtlas.clear { st with params := p, gen := g }

/-- The first-match-and-touch scan shared by `lookup` and the hit path of
`get_or_insert`: walk the slots in order; at the first entry whose codepoint
matches, set its `last_used` to `clk` and return it (and the updated table);
otherwise leave the table as it was. -/
def touchScan (ch : Char) (clk : Nat) :
    List (Option AtlasEntry) → Option AtlasEntry × List (Option AtlasEntry)
  | [] => (none, [])
  | none :: rest =>
      let r := touchScan ch clk rest
      (r.1, none :: r.2)
  | some e :: rest =>
      if e.codepoint = ch then
        (some { e with lastUsed := clk }, some { e with lastUsed := clk } :: rest)
      else
        let r := touchScan ch clk rest
        (r.1, some e :: r.2)

/-- `SdfAtlas::lookup`: advance the clock, then the first-match-and-touch
scan. -/
def SdfAtlas.lookup (st : SdfAtlas) (ch : Char) : Option AtlasEntry × SdfAtlas :=
  let clk := st.clock + 1
  let r := touchScan ch clk st.entries
  (r.1, { st with clock := clk, entries := r.2 })

/-- The LRU scan of `find_slot`: fold with the running best `(lru_idx,
lru_time)`, started at `(0, u32::MAX)`, updated on a strict `<`. -/
def lruFold : List (Option AtlasEntry) → Nat → Nat → Nat → Nat × Nat
  | [], bi, bt, _ => (bi, bt)
  | none :: rest, bi, bt, i => lruFold rest bi bt (i + 1)
  | some e :: rest, bi, bt, i =>
      if e.lastUsed < bt then lruFold rest i e.lastUsed (i + 1)
      else lruFold rest bi bt (i + 1)

/-- The first loop of `find_slot`: the index of the first empty slot, if
any. -/
def firstNoneIdx : List (Option AtlasEntry) → Option Nat
  | [] => none
  | none :: _ => some 0
  | some _ :: rest => (firstNoneIdx rest).map (· + 1)

/-- `SdfAtlas::find_slot`: first empty slot if any, else the LRU scan. -/
def findSlot (l : List (Option AtlasEntry)) : Nat :=
  match firstNoneIdx l with
  | some i => i
  | none => (lruFold l 0 u32Max 0).1

/-- `SdfAtlas::blit_tile`: copy the 32×32 tile row by row into the backing
buffer at the slot's pixel offset, as pointwise updates in loop order. -/
def blitTile (dim tileX tileY : Nat) (sdf : GlyphSdf) (pix : Nat → ℚ) : Nat → ℚ :=
  (List.range 32).foldl
    (fun acc row =>
      (List.range 32).foldl
        (fun acc2 col =>
          fun j =>
            if j = (tileY * 32 + row) * (dim * 32) + (tileX * 32 + col) then
              sdf.data (row * 32 + col)
            else acc2 j)
        acc)
    pix

/-- `SdfAtlas::get_or_insert`: advance the clock; on a hit, touch and return;
on a miss, generate the glyph (non-ASCII falls back to codepoint 63 = b'?'),
pick a slot with `find_slot`, blit, build the entry with fresh UVs and
metrics, bump `occupied` only if the slot was empty, and store the entry. -/
def SdfAtlas.getOrInsert (st : SdfAtlas) (ch : Char) : AtlasEntry × SdfAtlas :=
  let clk := st.clock + 1
  match (touchScan ch clk st.entries).1 with
  | some e => (e, { st with clock := clk, entries := (touchScan ch clk st.entries).2 })
  | none =>
      let ascii := if ch.toNat ≤ 127 then ch.toNat else 63
      let sdf := st.gen ascii
      let slot := findSlot st.entries
      let tileX := slot % st.dim
      let tileY := slot / st.dim
      let invTex : ℚ := 1 / ((st.dim * 32 : Nat) : ℚ)
      let pixels2 := blitTile st.dim tileX tileY sdf st.pixels
      let entry : AtlasEntry :=
        ⟨ch, tileX, tileY,
         ((tileX * 32 : Nat) : ℚ) * invTex, ((tileY * 32 : Nat) : ℚ) * invTex,
         (32 : ℚ) * invTex, (32 : ℚ) * invTex,
         sdf.advance, sdf.lsb, clk⟩
      let occ2 := if (st.entries.getD slot none).isNone then st.occupied + 1 else st.occupied
      (entry,
       { st with clock := clk, pixels := pixels2,
                 entries := st.entries.set slot (some entry), occupied := occ2 })

/-- The entry built on the miss path of `get_or_insert` (the same record the
source constructs, with `slot = find_slot()`, written as a standalone
definition so theorems can name it). -/
def insEntry (st : SdfAtlas) (ch : Char) : AtlasEntry :=
  let slot := findSlot st.entries
  let sdf := st.gen (if ch.toNat ≤ 127 then ch.toNat else 63)
  let invTex : ℚ := 1 / ((st.dim * 32 : Nat) : ℚ)
  ⟨ch, slot % st.dim, slot / st.dim,
   ((slot % st.dim * 32 : Nat) : ℚ) * invTex, ((slot / st.dim * 32 : Nat) : ℚ) * invTex,
   (32 : ℚ) * invTex, (32 : ℚ) * invTex,
   sdf.advance, sdf.lsb, st.clock + 1⟩

/-- `SdfAtlas::peek`: LRU-neutral scan for the first matching entry. -/
def SdfAtlas.peek (st : SdfAtlas) (ch : Char) : Option AtlasEntry :=
  st.entries.findSome? (fun o =>
    o.bind (fun e => if e.codepoint = ch then some e else none))

/-- `SdfAtlas::contains`: `peek(ch).is_some()`. -/
def SdfAtlas.contains (st : SdfAtlas) (ch : Char) : Bool :=
  (st.peek ch).isSome

/-- `SdfAtlas::sample`: bounds-checked pixel read, `0.0` out of range. -/
def SdfAtlas.sampleTex (st : SdfAtlas) (texX texY : Nat) : ℚ :=
  if texX ≥ st.textureSize ∨ texY ≥ st.textureSize then 0
  else st.pixels (texY * st.textureSize + texX)

/-- `SdfAtlas::preload`: `get_or_insert` over a list of characters. -/
def SdfAtlas.preload (st : SdfAtlas) (cs : List Char) : SdfAtlas :=
  cs.foldl (fun s c => (s.getOrInsert c).2) st

/-! ### The structural invariant (claim C9) -/

/-- The codepoints of the occupied slots, in slot order. -/
def entryCodepoints (l : List (Option AtlasEntry)) : List Char :=
  (l.filterMap id).map (fun e => e.codepoint)

/-- The atlas structural invariant: the entry table has exactly `dim²` slots,
`occupied` counts the non-empty slots, and no codepoint appears in two
slots. -/
def AtlasInv (st : SdfAtlas) : Prop :=
  st.entries.length = st.dim * st.dim ∧
  st.occupied = (st.entries.filter (fun o => o.isSome)).length ∧
  (entryCodepoints st.entries).Nodup

instance (st : SdfAtlas) : Decidable (AtlasInv st) :=
  inferInstanceAs (Decidable (_ ∧ _ ∧ _))

/-! ### Concrete instances used by counterexamples and witnesses -/

/-- Pen used by the rasterizer divergence input: `base_width = 1/25`,
`contrast = 0` (so the half-width is exactly `1/25` in every direction). -/
def cexPen : PenModel := ⟨1/25, 0, 1/2, 0⟩

/-- Skeleton used by the rasterizer divergence input: two horizontal line
strokes, `(0,0)–(1,0)` and `(0,1)–(1,1)`. -/
def cexSkel : GlyphSkeleton :=
  ⟨[Stroke.line ⟨0, 0⟩ ⟨1, 0⟩, Stroke.line ⟨0, 1⟩ ⟨1, 1⟩], 1⟩

/-- The empty skeleton (zero strokes, advance 1/2), as built by
`GlyphSkeleton::empty`. -/
def emptySkel : GlyphSkeleton := ⟨[], 1/2⟩

/-- A trivial abstract glyph generator for atlas witnesses. -/
def exGen : Nat → GlyphSdf := fun _ => GlyphSdf.emptySdf

/-- A concrete occupied atlas entry for witnesses. -/
def exEntryA : AtlasEntry := ⟨'A', 0, 0, 0, 0, 1, 1, 1/2, 0, 5⟩

/-- A concrete full (capacity-1) atlas for the C1 witness. -/
def exFull : SdfAtlas :=
  ⟨1, fun _ => 0, [some exEntryA], MetaFontParams.monoRegular, exGen, 7, 1⟩

/-- A concrete atlas with an empty slot for the C9 witness. -/
def exPartial : SdfAtlas :=
  ⟨2, fun _ => 0, [some exEntryA, none, none, none], MetaFontParams.monoRegular, exGen, 9, 1⟩

/-!
## Theorems

Batteries marks the arithmetic on `Rat` `@[irreducible]`; the kernel ignores
reducibility attributes, so concrete evaluations are decided in the kernel
after locally restoring the default reducibility for elaboration.
-/

attribute [local semireducible] Rat.mul Rat.inv Rat.add Rat.sub Rat.ofScientific

set_option maxRecDepth 100000

/-! ### Stroke and pen model -/

/-- C7: Bezier endpoint property — for every stroke (any four control
points), `position(0)` equals `p0` and `position(1)` equals `p3`.  In the
exact-rational model of the `f32` arithmetic the identity is exact; in `f32`
each product involves only the exact constants 0 and 1, so the source
computes the same values ("within float epsilon" as the spec puts it). -/
theorem C7_bezier_endpoints (s : Stroke) :
    s.position 0 = s.p0 ∧ s.position 1 = s.p3 := by
  constructor <;> (ext <;> simp [Stroke.position])

/-- C6: Monoline invariant — for every pen model with `contrast == 0`, the
half-width `half_width_at_angle(θ)` is independent of the direction angle θ
and equals `base_width`. -/
theorem C6_monoline_invariant (pen : PenModel) (a b : ℚ)
    (hc : pen.contrast = 0) :
    pen.halfWidthAtAngle a = pen.halfWidthAtAngle b ∧
    pen.halfWidthAtAngle a = pen.baseWidth := by
  simp only [PenModel.halfWidthAtAngle, hc]
  constructor <;> ring

/-- Witness for C6 at a concrete pen: the pen derived from the
`mono_regular` preset has `contrast = 0`, and its half-width at angles 0 and
1 agrees and equals the base width. -/
theorem C6_monoline_invariant_witness :
    (PenModel.fromParams MetaFontParams.monoRegular).contrast = 0 ∧
    ((PenModel.fromParams MetaFontParams.monoRegular).halfWidthAtAngle 0 =
       (PenModel.fromParams MetaFontParams.monoRegular).halfWidthAtAngle 1 ∧
     (PenModel.fromParams MetaFontParams.monoRegular).halfWidthAtAngle 0 =
       (PenModel.fromParams MetaFontParams.monoRegular).baseWidth) :=
  ⟨by decide,
   C6_monoline_invariant (PenModel.fromParams MetaFontParams.monoRegular) 0 1 (by decide)⟩

/-! ### Glyph-local sampling (claim C10) -/

/-- C10: implicit totality of glyph-local sampling — for every `GlyphSdf`
and every pair of coordinates (u, v), including values outside [0, 1],
negative values and values far above 1, both computed indices of
`GlyphSdf::sample` are clamped into [0, 31], the flat array access is in
bounds (`< 32·32`), and `sample` (and hence `is_inside`) returns the grid
element at those clamped indices — it never fails. -/
theorem C10_sample_total (sdf : GlyphSdf) (u v : ℚ) :
    sampleIdx u ≤ 31 ∧ sampleIdx v ≤ 31 ∧
    sampleIdx v * 32 + sampleIdx u < 32 * 32 ∧
    sdf.sample u v = sdf.data (sampleIdx v * 32 + sampleIdx u) ∧
    sdf.isInside u v = decide (sdf.data (sampleIdx v * 32 + sampleIdx u) < 0) := by
  have hb : ∀ w : ℚ, sampleIdx w ≤ 31 := by
    intro w
    show (if castUsize (w * 31) ≥ 32 then 31 else castUsize (w * 31)) ≤ 31
    split <;> omega
  refine ⟨hb u, hb v, ?_, rfl, rfl⟩
  have h1 := hb u
  have h2 := hb v
  omega

/-! ### Rasterizer degeneracy (claim C5) -/

/-- C5: rasterization is total and degrades gracefully — `rasterize_sdf` is
defined for every skeleton (the model is a total function), and whenever the
padded bounding box has near-zero width or height (`w < 1e-6 || h < 1e-6`,
in particular for every skeleton with zero strokes, whose box degenerates
from the `f32::MAX`/`f32::MIN` seeds), it returns the all-outside SDF: every
sample is `1.0` (positive) and the advance is the skeleton's advance.  The
statement holds for every square-root kernel `fsq`, since the degenerate
branch returns before any distance is computed. -/
theorem C5_degenerate_rasterization (fsq : ℚ → ℚ) (pen : PenModel)
    (skel : GlyphSkeleton)
    (hdeg : paddedW pen skel < 1 / 1000000 ∨ paddedH pen skel < 1 / 1000000) :
    (rasterizeSdf fsq pen skel).advance = skel.advance ∧
    ∀ i, (rasterizeSdf fsq pen skel).data i = 1 ∧
         0 < (rasterizeSdf fsq pen skel).data i := by
  have hr : rasterizeSdf fsq pen skel =
      ⟨fun _ => 1, skel.advance, 0, paddedBBMin pen skel, paddedBBMax pen skel⟩ := by
    unfold rasterizeSdf
    rw [if_pos hdeg]
    rfl
  rw [hr]
  refine ⟨rfl, fun i => ⟨rfl, ?_⟩⟩
  norm_num

/-- Witness for C5 at the zero-stroke skeleton: its padded box is degenerate
and the result is the all-positive tile with the skeleton's advance. -/
theorem C5_degenerate_rasterization_witness :
    (paddedW cexPen emptySkel < 1 / 1000000 ∨ paddedH cexPen emptySkel < 1 / 1000000) ∧
    ((rasterizeSdf ratSqrt cexPen emptySkel).advance = emptySkel.advance ∧
     ∀ i, (rasterizeSdf ratSqrt cexPen emptySkel).data i = 1 ∧
          0 < (rasterizeSdf ratSqrt cexPen emptySkel).data i) :=
  ⟨by decide, C5_degenerate_rasterization ratSqrt cexPen emptySkel (by decide)⟩

/-! ### Early-exit divergence (claim C2) -/

/-- C2: the early-exit optimizations of `rasterize_sdf` do NOT preserve the
output pixel for pixel.  At the concrete input `cexSkel` (two horizontal
line strokes) with pen `cexPen` (`base_width = 1/25`, `contrast = 0`), pixel
`(px, py) = (7, 3)` (flat index 103) lies exactly on the first stroke's
centerline at world x = 0.16: the optimized loop breaks out of the sample
loop at sample i = 2 with the first negative running minimum −1/200 and
stores it, while the naive minimum over all strokes and all 17 samples per
stroke (as computed by `distance_to_stroke`) is −1/80, attained at the
skipped sample i = 3.  Every square-root evaluation that decides this is of
a perfect square of a rational, where `ratSqrt` is exact; the margin 3/400
is about 10⁴ times the relative error of the source's `fast_sqrt_glyph`. -/
theorem C2_early_exit_divergence :
    (rasterizeSdf ratSqrt cexPen cexSkel).data 103 = -(1/200) ∧
    naiveSdfData ratSqrt cexPen cexSkel 103 = -(1/80) ∧
    (rasterizeSdf ratSqrt cexPen cexSkel).data 103 ≠
      naiveSdfData ratSqrt cexPen cexSkel 103 := by
  refine ⟨by decide, by decide, ?_⟩
  intro h
  exact absurd h (by decide)

/-! ### Atlas helper lemmas -/

/-- Characterization of the first-match-and-touch scan: either no entry
matches (and the table is returned unchanged), or the first matching entry,
at some slot `i`, is touched and returned, all other slots unchanged. -/
theorem touchScan_spec (ch : Char) (clk : Nat) (l : List (Option AtlasEntry)) :
    ((touchScan ch clk l).1 = none ∧ (touchScan ch clk l).2 = l ∧
      ∀ e ∈ l.filterMap id, e.codepoint ≠ ch) ∨
    (∃ i e, l.get? i = some (some e) ∧ e.codepoint = ch ∧
      (touchScan ch clk l).1 = some { e with lastUsed := clk } ∧
      (touchScan ch clk l).2 = l.set i (some { e with lastUsed := clk })) := by
  induction l with
  | nil => exact Or.inl ⟨rfl, rfl, by simp⟩
  | cons o rest ih =>
    cases o with
    | none =>
      rcases ih with ⟨h1, h2, h3⟩ | ⟨i, e, h1, h2, h3, h4⟩
      · exact Or.inl ⟨by simp [touchScan, h1], by simp [touchScan, h2], by simpa using h3⟩
      · exact Or.inr ⟨i + 1, e, by simpa using h1, h2,
          by simp [touchScan, h3], by simp [touchScan, h4]⟩
    | some e0 =>
      by_cases hc : e0.codepoint = ch
      · exact Or.inr ⟨0, e0, rfl, hc, by simp [touchScan, hc], by simp [touchScan, hc]⟩
      · rcases ih with ⟨h1, h2, h3⟩ | ⟨i, e, h1, h2, h3, h4⟩
        · refine Or.inl ⟨by simp [touchScan, hc, h1], by simp [touchScan, hc, h2], ?_⟩
          intro e he
          rcases (by simpa using he : e = e0 ∨ e ∈ rest.filterMap id) with rfl | he2
          · exact hc
          · exact h3 e he2
        · exact Or.inr ⟨i + 1, e, by simpa using h1, h2,
            by simp [touchScan, hc, h3], by simp [touchScan, hc, h4]⟩

/-- The `peek` scan over an entry table finds nothing iff no occupied slot
holds the codepoint. -/
theorem findSomeMatch_eq_none_iff (l : List (Option AtlasEntry)) (ch : Char) :
    (l.findSome? fun o => o.bind fun e => if e.codepoint = ch then some e else none) = none
      ↔ ∀ e ∈ l.filterMap id, e.codepoint ≠ ch := by
  induction l with
  | nil => simp
  | cons o rest ih =>
    cases o with
    | none => simpa [List.findSome?] using ih
    | some e0 =>
      by_cases hc : e0.codepoint = ch
      · simp [List.findSome?, hc]
      · simpa [List.findSome?, hc] using ih

/-- The `peek` scan over an entry table succeeds iff some occupied slot
holds the codepoint. -/
theorem findSomeMatch_isSome_iff (l : List (Option AtlasEntry)) (ch : Char) :
    (l.findSome? fun o => o.bind fun e => if e.codepoint = ch then some e else none).isSome
        = true
      ↔ ∃ e ∈ l.filterMap id, e.codepoint = ch := by
  induction l with
  | nil => simp
  | cons o rest ih =>
    cases o with
    | none => simpa [List.findSome?] using ih
    | some e0 =>
      by_cases hc : e0.codepoint = ch
      · simp [List.findSome?, hc]
      · simpa [List.findSome?, hc] using ih

/-- `peek` finds nothing iff no occupied slot holds the codepoint. -/
theorem peek_eq_none_iff (st : SdfAtlas) (ch : Char) :
    st.peek ch = none ↔ ∀ e ∈ st.entries.filterMap id, e.codepoint ≠ ch :=
  findSomeMatch_eq_none_iff st.entries ch

/-- `contains` is true iff some occupied slot holds the codepoint. -/
theorem contains_eq_true_iff (st : SdfAtlas) (ch : Char) :
    st.contains ch = true ↔ ∃ e ∈ st.entries.filterMap id, e.codepoint = ch :=
  findSomeMatch_isSome_iff st.entries ch

/-- Membership in `filterMap id` is the same as being the entry of some
slot. -/
theorem mem_filterMap_id_iff (l : List (Option AtlasEntry)) (e : AtlasEntry) :
    e ∈ l.filterMap id ↔ ∃ i, l.get? i = some (some e) := by
  induction l with
  | nil => simp
  | cons o rest ih =>
    cases o with
    | none =>
      simp only [List.filterMap_cons]
      constructor
      · intro h
        rcases ih.mp (by simpa using h) with ⟨i, hi⟩
        exact ⟨i + 1, by simpa using hi⟩
      · rintro ⟨i, hi⟩
        cases i with
        | zero => simp at hi
        | succ i => exact by simpa using ih.mpr ⟨i, by simpa using hi⟩
    | some e0 =>
      simp only [List.filterMap_cons, id_eq, List.mem_cons]
      constructor
      · rintro (rfl | h)
        · exact ⟨0, rfl⟩
        · rcases ih.mp h with ⟨i, hi⟩
          exact ⟨i + 1, by simpa using hi⟩
      · rintro ⟨i, hi⟩
        cases i with
        | zero =>
          left
          have : some e0 = some e := by simpa using hi
          simpa using this.symm
        | succ i => exact Or.inr (ih.mpr ⟨i, by simpa using hi⟩)

/-- A slot with an entry is within the table. -/
theorem get?_some_lt_length :
    ∀ {l : List (Option AtlasEntry)} {i : Nat} {x : Option AtlasEntry},
      l.get? i = some x → i < l.length := by
  intro l
  induction l with
  | nil => intro i x h; simp at h
  | cons o rest ih =>
    intro i x h
    cases i with
    | zero => simp
    | succ i => exact Nat.succ_lt_succ (ih (by simpa using h))

/-- Every in-range slot has a stored element. -/
theorem exists_get?_of_lt :
    ∀ {l : List (Option AtlasEntry)} {i : Nat}, i < l.length → ∃ o, l.get? i = some o := by
  intro l
  induction l with
  | nil => intro i h; simp at h
  | cons o rest ih =>
    intro i h
    cases i with
    | zero => exact ⟨o, rfl⟩
    | succ i => exact ih (by simpa using h)

/-- Reading the slot just written. -/
theorem get?_set_self :
    ∀ {l : List (Option AtlasEntry)} {i : Nat} (a : Option AtlasEntry),
      i < l.length → (l.set i a).get? i = some a := by
  intro l
  induction l with
  | nil => intro i a h; simp at h
  | cons o rest ih =>
    intro i a h
    cases i with
    | zero => rfl
    | succ i => simpa using ih a (by simpa using h)

/-- Reading any other slot after a write. -/
theorem get?_set_other :
    ∀ {l : List (Option AtlasEntry)} {i j : Nat} (a : Option AtlasEntry),
      i ≠ j → (l.set i a).get? j = l.get? j := by
  intro l
  induction l with
  | nil => intro i j a _; simp
  | cons o rest ih =>
    intro i j a hij
    cases i with
    | zero =>
      cases j with
      | zero => exact absurd rfl hij
      | succ j => rfl
    | succ i =>
      cases j with
      | zero => rfl
      | succ j => simpa using ih a (fun h => hij (by omega))

/-- `Vec` indexing with a default agrees with `get?`. -/
theorem getD_eq_get?D (l : List (Option AtlasEntry)) (k : Nat) :
    l.getD k none = (l.get? k).getD none := by
  induction l generalizing k with
  | nil => cases k <;> rfl
  | cons o rest ih =>
    cases k with
    | zero => rfl
    | succ k => simp [List.getD]

/-- Writing into an empty slot adds one occupied slot. -/
theorem filterSome_length_set_none :
    ∀ {l : List (Option AtlasEntry)} {k : Nat} (x : AtlasEntry),
      l.get? k = some none →
      ((l.set k (some x)).filter (fun o => o.isSome)).length
        = (l.filter (fun o => o.isSome)).length + 1 := by
  intro l
  induction l with
  | nil => intro k x h; simp at h
  | cons o rest ih =>
    intro k x h
    cases k with
    | zero =>
      have ho : o = none := by simpa using h
      subst ho
      simp
    | succ k =>
      have h2 := ih x (by simpa using h)
      cases o with
      | none => simpa using h2
      | some e => simpa using h2

/-- Overwriting an occupied slot keeps the occupied count. -/
theorem filterSome_length_set_some :
    ∀ {l : List (Option AtlasEntry)} {k : Nat} {e : AtlasEntry} (x : AtlasEntry),
      l.get? k = some (some e) →
      ((l.set k (some x)).filter (fun o => o.isSome)).length
        = (l.filter (fun o => o.isSome)).length := by
  intro l
  induction l with
  | nil => intro k e x h; simp at h
  | cons o rest ih =>
    intro k e x h
    cases k with
    | zero =>
      have ho : o = some e := by simpa using h
      subst ho
      simp
    | succ k =>
      have h2 := ih x (by simpa using h)
      cases o with
      | none => simpa using h2
      | some e2 => simpa using h2

/-- Unfolding `entryCodepoints` over an empty slot. -/
theorem entryCodepoints_cons_none (l : List (Option AtlasEntry)) :
    entryCodepoints (none :: l) = entryCodepoints l := rfl

/-- Unfolding `entryCodepoints` over an occupied slot. -/
theorem entryCodepoints_cons_some (e : AtlasEntry) (l : List (Option AtlasEntry)) :
    entryCodepoints (some e :: l) = e.codepoint :: entryCodepoints l := by
  simp [entryCodepoints]

/-- Replacing an entry by one with the same codepoint leaves the codepoint
list unchanged. -/
theorem entryCodepoints_set_same :
    ∀ {l : List (Option AtlasEntry)} {i : Nat} {e : AtlasEntry} (x : AtlasEntry),
      l.get? i = some (some e) → x.codepoint = e.codepoint →
      entryCodepoints (l.set i (some x)) = entryCodepoints l := by
  intro l
  induction l with
  | nil => intro i e x h _; simp at h
  | cons o rest ih =>
    intro i e x h hcp
    cases i with
    | zero =>
      have ho : o = some e := by simpa using h
      subst ho
      simp [entryCodepoints_cons_some, hcp]
    | succ i =>
      have h2 := ih x (by simpa using h) hcp
      cases o with
      | none => simpa [entryCodepoints_cons_none] using h2
      | some e2 => simpa [entryCodepoints_cons_some] using h2

/-- A codepoint present after a write was either written or already
present. -/
theorem mem_entryCodepoints_set :
    ∀ {l : List (Option AtlasEntry)} {k : Nat} {x : AtlasEntry} {c : Char},
      c ∈ entryCodepoints (l.set k (some x)) →
      c = x.codepoint ∨ c ∈ entryCodepoints l := by
  intro l
  induction l with
  | nil => intro k x c h; simp [entryCodepoints] at h
  | cons o rest ih =>
    intro k x c h
    cases k with
    | zero =>
      rcases (by simpa [entryCodepoints_cons_some] using h : c = x.codepoint ∨ c ∈ entryCodepoints rest) with h1 | h1
      · exact Or.inl h1
      · refine Or.inr ?_
        cases o with
        | none => simpa [entryCodepoints_cons_none] using h1
        | some e0 => simp [entryCodepoints_cons_some]; exact Or.inr h1
    | succ k =>
      cases o with
      | none =>
        rcases ih (by simpa [entryCodepoints_cons_none] using h) with h1 | h1
        · exact Or.inl h1
        · exact Or.inr (by simpa [entryCodepoints_cons_none] using h1)
      | some e0 =>
        rcases (by simpa [entryCodepoints_cons_some] using h :
            c = e0.codepoint ∨ c ∈ entryCodepoints (rest.set k (some x))) with h1 | h1
        · exact Or.inr (by simp [entryCodepoints_cons_some, h1])
        · rcases ih h1 with h2 | h2
          · exact Or.inl h2
          · exact Or.inr (by simp [entryCodepoints_cons_some]; exact Or.inr h2)

/-- Writing a codepoint that occurs nowhere preserves codepoint
uniqueness. -/
theorem nodup_entryCodepoints_set_fresh :
    ∀ {l : List (Option AtlasEntry)} {k : Nat} {x : AtlasEntry},
      (entryCodepoints l).Nodup →
      (∀ e ∈ l.filterMap id, e.codepoint ≠ x.codepoint) →
      (entryCodepoints (l.set k (some x))).Nodup := by
  intro l
  induction l with
  | nil => intro k x _ _; simp [entryCodepoints]
  | cons o rest ih =>
    intro k x hnd hfresh
    have hfr : ∀ e ∈ rest.filterMap id, e.codepoint ≠ x.codepoint := by
      intro e he
      apply hfresh
      cases o with
      | none => simpa using he
      | some e0 =>
        show e ∈ e0 :: rest.filterMap id
        exact List.mem_cons_of_mem e0 he
    cases k with
    | zero =>
      rw [List.set_cons_zero, entryCodepoints_cons_some]
      have hndrest : (entryCodepoints rest).Nodup := by
        cases o with
        | none => exact hnd
        | some e0 => exact (List.nodup_cons.mp (by simpa [entryCodepoints_cons_some] using hnd)).2
      refine List.nodup_cons.mpr ⟨?_, hndrest⟩
      intro hc
      rcases List.mem_map.mp
          (show x.codepoint ∈ (rest.filterMap id).map (fun e => e.codepoint) from hc)
        with ⟨e, he, hcp⟩
      exact hfr e he hcp
    | succ k =>
      rw [List.set_cons_succ]
      cases o with
      | none =>
        rw [entryCodepoints_cons_none]
        exact ih hnd hfr
      | some e0 =>
        rw [entryCodepoints_cons_some]
        have hnd2 := List.nodup_cons.mp (by simpa [entryCodepoints_cons_some] using hnd)
        refine List.nodup_cons.mpr ⟨?_, ih hnd2.2 hfr⟩
        intro hc
        rcases mem_entryCodepoints_set hc with h1 | h1
        · exact hfresh e0 (by simp) h1
        · exact hnd2.1 h1

/-- Under codepoint uniqueness, two slots holding the same codepoint are the
same slot. -/
theorem nodup_cp_get :
    ∀ {l : List (Option AtlasEntry)}, (entryCodepoints l).Nodup →
      ∀ {i j : Nat} {a b : AtlasEntry},
        l.get? i = some (some a) → l.get? j = some (some b) →
        a.codepoint = b.codepoint → i = j := by
  intro l
  induction l with
  | nil => intro _ i j a b hi; simp at hi
  | cons o rest ih =>
    intro hnd i j a b hi hj hcp
    cases o with
    | none =>
      cases i with
      | zero => simp at hi
      | succ i =>
        cases j with
        | zero => simp at hj
        | succ j =>
          have := ih (by simpa [entryCodepoints_cons_none] using hnd)
            (by simpa using hi) (by simpa using hj) hcp
          omega
    | some e0 =>
      have hnd2 := List.nodup_cons.mp (by simpa [entryCodepoints_cons_some] using hnd)
      cases i with
      | zero =>
        cases j with
        | zero => rfl
        | succ j =>
          have ha : a = e0 := by simpa using hi.symm
          have hbmem : b ∈ rest.filterMap id :=
            (mem_filterMap_id_iff rest b).mpr ⟨j, by simpa using hj⟩
          have hcpe : b.codepoint = e0.codepoint := by rw [← ha, ← hcp]
          exact absurd
            (show e0.codepoint ∈ entryCodepoints rest from
              List.mem_map.mpr ⟨b, hbmem, hcpe⟩) hnd2.1
      | succ i =>
        cases j with
        | zero =>
          have hb : b = e0 := by simpa using hj.symm
          have hamem : a ∈ rest.filterMap id :=
            (mem_filterMap_id_iff rest a).mpr ⟨i, by simpa using hi⟩
          have hcpe : a.codepoint = e0.codepoint := by rw [← hb]; exact hcp
          exact absurd
            (show e0.codepoint ∈ entryCodepoints rest from
              List.mem_map.mpr ⟨a, hamem, hcpe⟩) hnd2.1
        | succ j =>
          have := ih hnd2.2 (by simpa using hi) (by simpa using hj) hcp
          omega

/-- The first-empty-slot scan fails exactly on a full table. -/
theorem firstNoneIdx_none_iff (l : List (Option AtlasEntry)) :
    firstNoneIdx l = none ↔ ∀ o ∈ l, o.isSome = true := by
  induction l with
  | nil => simp [firstNoneIdx]
  | cons o rest ih =>
    cases o with
    | none => simp [firstNoneIdx]
    | some e => simpa [firstNoneIdx] using ih

/-- The first-empty-slot scan returns the least empty slot. -/
theorem firstNoneIdx_spec :
    ∀ {l : List (Option AtlasEntry)} {k : Nat}, firstNoneIdx l = some k →
      l.get? k = some none ∧ ∀ j, j < k → l.get? j ≠ some none := by
  intro l
  induction l with
  | nil => intro k h; simp [firstNoneIdx] at h
  | cons o rest ih =>
    intro k h
    cases o with
    | none =>
      have hk : k = 0 := by simpa [firstNoneIdx] using h.symm
      subst hk
      exact ⟨rfl, fun j hj => absurd hj (by omega)⟩
    | some e =>
      rcases Option.map_eq_some'.mp (by simpa [firstNoneIdx] using h) with ⟨k2, hk2, hkk⟩
      have h2 := ih hk2
      subst hkk
      refine ⟨by simpa using h2.1, ?_⟩
      intro j hj
      cases j with
      | zero => simp
      | succ j => simpa using h2.2 j (by omega)

/-- If some slot is empty, the first-empty-slot scan succeeds. -/
theorem firstNoneIdx_exists {l : List (Option AtlasEntry)} {i : Nat}
    (h : l.get? i = some none) : ∃ k, firstNoneIdx l = some k := by
  cases hf : firstNoneIdx l with
  | some k => exact ⟨k, rfl⟩
  | none =>
    have hall := (firstNoneIdx_none_iff l).mp hf
    have hmem : (none : Option AtlasEntry) ∈ l := List.get?_mem h
    exact absurd (hall none hmem) (by simp)

/-- Behaviour of the LRU fold: the returned time is the minimum of the
accumulator and all stored timestamps, and the returned index is the first
slot attaining it (the accumulator index when no slot improves on the
accumulator time). -/
theorem lruFold_spec :
    ∀ (l : List (Option AtlasEntry)) (bi bt i : Nat), bi ≤ i →
      (lruFold l bi bt i).2 ≤ bt ∧
      ((lruFold l bi bt i).2 = bt → (lruFold l bi bt i).1 = bi) ∧
      (∀ j e, l.get? j = some (some e) → (lruFold l bi bt i).2 ≤ e.lastUsed) ∧
      ((lruFold l bi bt i).2 < bt →
        ∃ j e, l.get? j = some (some e) ∧ e.lastUsed = (lruFold l bi bt i).2 ∧
          (lruFold l bi bt i).1 = i + j) ∧
      (∀ j e, l.get? j = some (some e) → e.lastUsed ≤ (lruFold l bi bt i).2 →
        (lruFold l bi bt i).1 ≤ i + j) := by
  intro l
  induction l with
  | nil =>
    intro bi bt i hbi
    refine ⟨Nat.le_refl _, fun _ => rfl, ?_, ?_, ?_⟩
    · intro j e hj; simp at hj
    · intro h; exact absurd h (lt_irrefl _)
    · intro j e hj; simp at hj
  | cons o rest ih =>
    intro bi bt i hbi
    cases o with
    | none =>
      have heq : lruFold (none :: rest) bi bt i = lruFold rest bi bt (i + 1) := rfl
      rw [heq]
      obtain ⟨H1, H2, H3, H4, H5⟩ := ih bi bt (i + 1) (Nat.le_succ_of_le hbi)
      refine ⟨H1, H2, ?_, ?_, ?_⟩
      · intro j e hj
        cases j with
        | zero => simp at hj
        | succ j => exact H3 j e (by simpa using hj)
      · intro hlt
        rcases H4 hlt with ⟨j, e, hj, hval, hidx⟩
        exact ⟨j + 1, e, by simpa using hj, hval, by omega⟩
      · intro j e hj hle
        cases j with
        | zero => simp at hj
        | succ j =>
          have := H5 j e (by simpa using hj) hle
          omega
    | some e0 =>
      by_cases hlt0 : e0.lastUsed < bt
      · have heq : lruFold (some e0 :: rest) bi bt i
            = lruFold rest i e0.lastUsed (i + 1) := by
          simp [lruFold, hlt0]
        rw [heq]
        obtain ⟨H1, H2, H3, H4, H5⟩ := ih i e0.lastUsed (i + 1) (Nat.le_succ i)
        refine ⟨by omega, by omega, ?_, ?_, ?_⟩
        · intro j e hj
          cases j with
          | zero =>
            have he : e = e0 := by simpa using hj.symm
            rw [he]
            exact H1
          | succ j => exact H3 j e (by simpa using hj)
        · intro _
          rcases eq_or_lt_of_le H1 with heq2 | hlt2
          · exact ⟨0, e0, rfl, heq2.symm, by have := H2 heq2; omega⟩
          · rcases H4 hlt2 with ⟨j, e, hj, hval, hidx⟩
            exact ⟨j + 1, e, by simpa using hj, hval, by omega⟩
        · intro j e hj hle
          cases j with
          | zero =>
            have he : e = e0 := by simpa using hj.symm
            rw [he] at hle
            have hv : (lruFold rest i e0.lastUsed (i + 1)).2 = e0.lastUsed :=
              Nat.le_antisymm H1 hle
            have := H2 hv
            omega
          | succ j =>
            have := H5 j e (by simpa using hj) hle
            omega
      · have heq : lruFold (some e0 :: rest) bi bt i = lruFold rest bi bt (i + 1) := by
          simp [lruFold, hlt0]
        rw [heq]
        obtain ⟨H1, H2, H3, H4, H5⟩ := ih bi bt (i + 1) (Nat.le_succ_of_le hbi)
        refine ⟨H1, H2, ?_, ?_, ?_⟩
        · intro j e hj
          cases j with
          | zero =>
            have he : e = e0 := by simpa using hj.symm
            rw [he]
            omega
          | succ j => exact H3 j e (by simpa using hj)
        · intro hlt
          rcases H4 hlt with ⟨j, e, hj, hval, hidx⟩
          exact ⟨j + 1, e, by simpa using hj, hval, by omega⟩
        · intro j e hj hle
          cases j with
          | zero =>
            have he : e = e0 := by simpa using hj.symm
            rw [he] at hle
            have hv : (lruFold rest bi bt (i + 1)).2 = bt := by omega
            have := H2 hv
            omega
          | succ j =>
            have := H5 j e (by simpa using hj) hle
            omega

/-- `find_slot` rewrites to the first empty slot when one exists. -/
theorem findSlot_of_firstNone {l : List (Option AtlasEntry)} {k : Nat}
    (h : firstNoneIdx l = some k) : findSlot l = k := by
  unfold findSlot
  rw [h]

/-- On a full non-empty table with `u32`-bounded timestamps, `find_slot`
returns an occupied slot whose entry has the globally smallest `last_used`,
and the lowest such slot index. -/
theorem findSlot_full_spec {l : List (Option AtlasEntry)}
    (hne : l ≠ []) (hfull : ∀ o ∈ l, o.isSome = true)
    (hbound : ∀ e ∈ l.filterMap id, e.lastUsed ≤ u32Max) :
    ∃ eOld, l.get? (findSlot l) = some (some eOld) ∧
      (∀ e ∈ l.filterMap id, eOld.lastUsed ≤ e.lastUsed) ∧
      (∀ j e, l.get? j = some (some e) → e.lastUsed = eOld.lastUsed → findSlot l ≤ j) := by
  have hf : firstNoneIdx l = none := (firstNoneIdx_none_iff l).mpr hfull
  have hfs : findSlot l = (lruFold l 0 u32Max 0).1 := by
    unfold findSlot
    rw [hf]
  obtain ⟨H1, H2, H3, H4, H5⟩ := lruFold_spec l 0 u32Max 0 (Nat.le_refl 0)
  rcases lt_or_eq_of_le H1 with hlt | heq
  · rcases H4 hlt with ⟨j, e, hj, hval, hidx⟩
    refine ⟨e, ?_, ?_, ?_⟩
    · rw [hfs, hidx]
      simpa using hj
    · intro e2 he2
      rcases (mem_filterMap_id_iff l e2).mp he2 with ⟨j2, hj2⟩
      have := H3 j2 e2 hj2
      omega
    · intro j2 e2 hj2 hval2
      have := H5 j2 e2 hj2 (by omega)
      rw [hfs]
      omega
  · have hr1 : (lruFold l 0 u32Max 0).1 = 0 := H2 heq
    cases l with
    | nil => exact absurd rfl hne
    | cons o rest =>
      cases o with
      | none => exact absurd (hfull none (by simp)) (by simp)
      | some e0 =>
        have hb0 : e0.lastUsed ≤ u32Max := hbound e0 (by simp)
        refine ⟨e0, ?_, ?_, ?_⟩
        · rw [hfs, hr1]
          rfl
        · intro e2 he2
          rcases (mem_filterMap_id_iff _ e2).mp he2 with ⟨j2, hj2⟩
          have := H3 j2 e2 hj2
          omega
        · intro j e hj hval
          rw [hfs, hr1]
          omega

/-- `find_slot` always returns an in-range slot on a non-empty table. -/
theorem findSlot_lt_length {l : List (Option AtlasEntry)} (hne : l ≠ []) :
    findSlot l < l.length := by
  cases hf : firstNoneIdx l with
  | some k =>
    rw [findSlot_of_firstNone hf]
    exact get?_some_lt_length (firstNoneIdx_spec hf).1
  | none =>
    have hfs : findSlot l = (lruFold l 0 u32Max 0).1 := by
      unfold findSlot
      rw [hf]
    obtain ⟨H1, H2, H3, H4, H5⟩ := lruFold_spec l 0 u32Max 0 (Nat.le_refl 0)
    rcases lt_or_eq_of_le H1 with hlt | heq
    · rcases H4 hlt with ⟨j, e, hj, _, hidx⟩
      have := get?_some_lt_length hj
      rw [hfs]
      omega
    · rw [hfs, H2 heq]
      cases l with
      | nil => exact absurd rfl hne
      | cons o rest => simp

/-! ### Claim C4: parameter invalidation -/

/-- C4: for every atlas state (in particular any non-empty one), after
`set_params(new_params)` the occupied count is 0, every slot is empty (so
`contains(c)` is false for every codepoint), every pixel of the backing
buffer is `0.0`, and the logical clock is 0. -/
theorem C4_set_params_invalidation (st : SdfAtlas) (p : MetaFontParams)
    (g : Nat → GlyphSdf) :
    (st.setParams p g).occupied = 0 ∧
    (st.setParams p g).clock = 0 ∧
    (st.setParams p g).pixels = (fun _ => 0) ∧
    (∀ o ∈ (st.setParams p g).entries, o = none) ∧
    ∀ c : Char, (st.setParams p g).contains c = false := by
  refine ⟨rfl, rfl, rfl, ?_, ?_⟩
  · intro o ho
    have h2 : ¬st.entries = [] ∧ o = none := by
      simpa [SdfAtlas.setParams, SdfAtlas.clear] using ho
    exact h2.2
  · intro c
    have hnone : (SdfAtlas.peek (st.setParams p g) c) = none := by
      rw [peek_eq_none_iff]
      intro e he
      rcases (mem_filterMap_id_iff _ e).mp he with ⟨i, hi⟩
      have hmem : (some e : Option AtlasEntry) ∈ (st.setParams p g).entries :=
        List.get?_mem hi
      simp only [SdfAtlas.setParams, SdfAtlas.clear, List.mem_map] at hmem
      rcases hmem with ⟨o, _, ho⟩
      exact absurd ho (by simp)
    show (SdfAtlas.peek _ c).isSome = false
    rw [hnone]
    rfl

/-! ### Claim C3: lookup semantics -/

/-- C3: for every atlas state and codepoint, `lookup` advances the logical
clock by exactly one and leaves the pixel buffer, occupancy, dimension and
parameters untouched; if an entry for the codepoint exists, the first such
entry has its `last_used` set to the new clock value and is returned, every
other slot unchanged (`List.set` at that single slot); otherwise `lookup`
returns `None` and the whole entry table is unchanged. -/
theorem C3_lookup_semantics (st : SdfAtlas) (ch : Char) :
    (st.lookup ch).2.clock = st.clock + 1 ∧
    (st.lookup ch).2.pixels = st.pixels ∧
    (st.lookup ch).2.occupied = st.occupied ∧
    (st.lookup ch).2.dim = st.dim ∧
    (st.lookup ch).2.params = st.params ∧
    (((st.lookup ch).1 = none ∧ (st.lookup ch).2.entries = st.entries ∧
       ∀ e ∈ st.entries.filterMap id, e.codepoint ≠ ch) ∨
     (∃ i e, st.entries.get? i = some (some e) ∧ e.codepoint = ch ∧
       (st.lookup ch).1 = some { e with lastUsed := st.clock + 1 } ∧
       (st.lookup ch).2.entries = st.entries.set i (some { e with lastUsed := st.clock + 1 }))) := by
  exact ⟨rfl, rfl, rfl, rfl, rfl, touchScan_spec ch (st.clock + 1) st.entries⟩

/-! ### `get_or_insert` case analysis -/

/-- On a miss, `get_or_insert` inserts `insEntry` at `find_slot()`, blits the
tile, bumps `occupied` only if the slot was empty, and advances the clock. -/
theorem getOrInsert_miss (st : SdfAtlas) (ch : Char)
    (h : (touchScan ch (st.clock + 1) st.entries).1 = none) :
    st.getOrInsert ch =
      (insEntry st ch,
       { st with clock := st.clock + 1,
                 pixels := blitTile st.dim (findSlot st.entries % st.dim)
                   (findSlot st.entries / st.dim)
                   (st.gen (if ch.toNat ≤ 127 then ch.toNat else 63)) st.pixels,
                 entries := st.entries.set (findSlot st.entries) (some (insEntry st ch)),
                 occupied := if (st.entries.getD (findSlot st.entries) none).isNone
                             then st.occupied + 1 else st.occupied }) := by
  simp only [SdfAtlas.getOrInsert, h]
  rfl

/-- On a hit, `get_or_insert` returns the touched entry and state. -/
theorem getOrInsert_hit (st : SdfAtlas) (ch : Char) {e : AtlasEntry}
    (h : (touchScan ch (st.clock + 1) st.entries).1 = some e) :
    st.getOrInsert ch =
      (e, { st with clock := st.clock + 1,
                    entries := (touchScan ch (st.clock + 1) st.entries).2 }) := by
  simp only [SdfAtlas.getOrInsert, h]

/-- `get_or_insert` never changes the grid dimension. -/
theorem getOrInsert_dim (st : SdfAtlas) (ch : Char) :
    (st.getOrInsert ch).2.dim = st.dim := by
  cases hscan : (touchScan ch (st.clock + 1) st.entries).1 with
  | none => rw [getOrInsert_miss st ch hscan]
  | some e => rw [getOrInsert_hit st ch hscan]

/-! ### Invariant preservation lemmas (claim C9) -/

/-- `lookup` preserves the structural invariant. -/
theorem inv_lookup (st : SdfAtlas) (ch : Char) (hinv : AtlasInv st) :
    AtlasInv (st.lookup ch).2 := by
  obtain ⟨hlen, hocc, hnd⟩ := hinv
  rcases touchScan_spec ch (st.clock + 1) st.entries with ⟨_, h2, _⟩ | ⟨i, e, h1, _, _, h4⟩
  · exact ⟨by rw [show (st.lookup ch).2.entries = _ from h2]; exact hlen,
           by rw [show (st.lookup ch).2.entries = _ from h2]; exact hocc,
           by rw [show (st.lookup ch).2.entries = _ from h2]; exact hnd⟩
  · have he : (st.lookup ch).2.entries
        = st.entries.set i (some { e with lastUsed := st.clock + 1 }) := h4
    refine ⟨?_, ?_, ?_⟩
    · rw [he]
      simpa using hlen
    · rw [he, filterSome_length_set_some _ h1]
      exact hocc
    · rw [he, entryCodepoints_set_same { e with lastUsed := st.clock + 1 } h1 rfl]
      exact hnd

/-- After mapping every slot to `None` nothing is occupied. -/
theorem filter_isSome_map_none (l : List (Option AtlasEntry)) :
    ((l.map fun _ => (none : Option AtlasEntry)).filter fun o => o.isSome) = [] := by
  induction l with
  | nil => rfl
  | cons o rest ih => simp

/-- After mapping every slot to `None` there are no codepoints. -/
theorem entryCodepoints_map_none (l : List (Option AtlasEntry)) :
    entryCodepoints (l.map fun _ => (none : Option AtlasEntry)) = [] := by
  induction l with
  | nil => rfl
  | cons o rest ih => simp [entryCodepoints]

/-- `clear` re-establishes the structural invariant from scratch. -/
theorem inv_clear (st : SdfAtlas) (hinv : AtlasInv st) : AtlasInv st.clear := by
  obtain ⟨hlen, _, _⟩ := hinv
  refine ⟨?_, ?_, ?_⟩
  · show (st.entries.map fun _ => none).length = st.dim * st.dim
    simpa using hlen
  · show 0 = ((st.entries.map fun _ => none).filter fun o => o.isSome).length
    rw [filter_isSome_map_none]
    rfl
  · show (entryCodepoints (st.entries.map fun _ => none)).Nodup
    rw [entryCodepoints_map_none]
    exact List.nodup_nil

/-- `set_params` preserves the structural invariant (it clears). -/
theorem inv_setParams (st : SdfAtlas) (p : MetaFontParams) (g : Nat → GlyphSdf)
    (hinv : AtlasInv st) : AtlasInv (st.setParams p g) :=
  inv_clear { st with params := p, gen := g } hinv

/-- `get_or_insert` preserves the structural invariant. -/
theorem inv_getOrInsert (st : SdfAtlas) (ch : Char) (hinv : AtlasInv st)
    (hdim : 0 < st.dim) : AtlasInv (st.getOrInsert ch).2 := by
  obtain ⟨hlen, hocc, hnd⟩ := hinv
  have hne : st.entries ≠ [] := by
    intro h0
    rw [h0] at hlen
    simp only [List.length_nil] at hlen
    exact absurd hlen (ne_of_lt (Nat.mul_pos hdim hdim))
  cases hscan : (touchScan ch (st.clock + 1) st.entries).1 with
  | some e =>
    rcases touchScan_spec ch (st.clock + 1) st.entries with ⟨h1, _, _⟩ | ⟨i, e2, h1, h2, h3, h4⟩
    · rw [hscan] at h1
      exact absurd h1 (by simp)
    · rw [getOrInsert_hit st ch hscan]
      refine ⟨?_, ?_, ?_⟩
      · show (touchScan ch (st.clock + 1) st.entries).2.length = st.dim * st.dim
        rw [h4]
        simpa using hlen
      · show st.occupied
            = ((touchScan ch (st.clock + 1) st.entries).2.filter (fun o => o.isSome)).length
        rw [h4, filterSome_length_set_some _ h1]
        exact hocc
      · show (entryCodepoints (touchScan ch (st.clock + 1) st.entries).2).Nodup
        rw [h4, entryCodepoints_set_same { e2 with lastUsed := st.clock + 1 } h1 rfl]
        exact hnd
  | none =>
    rcases touchScan_spec ch (st.clock + 1) st.entries with ⟨_, _, h3⟩ | ⟨i, e2, h1, h2, h3, _⟩
    · rw [getOrInsert_miss st ch hscan]
      have hslot : findSlot st.entries < st.entries.length := findSlot_lt_length hne
      rcases exists_get?_of_lt hslot with ⟨o, ho⟩
      have hgd : st.entries.getD (findSlot st.entries) none = o := by
        rw [getD_eq_get?D, ho]
        rfl
      refine ⟨?_, ?_, ?_⟩
      · show (st.entries.set (findSlot st.entries) (some (insEntry st ch))).length = _
        simpa using hlen
      · show (if (st.entries.getD (findSlot st.entries) none).isNone
              then st.occupied + 1 else st.occupied) = _
        rw [hgd]
        cases o with
        | none =>
          show st.occupied + 1 = _
          rw [filterSome_length_set_none _ ho, hocc]
        | some e2 =>
          show st.occupied = _
          rw [filterSome_length_set_some _ ho]
          exact hocc
      · show (entryCodepoints (st.entries.set (findSlot st.entries)
          (some (insEntry st ch)))).Nodup
        exact nodup_entryCodepoints_set_fresh hnd (fun e he => h3 e he)
    · rw [hscan] at h3
      exact absurd h3 (by simp)

/-- `preload` preserves the structural invariant. -/
theorem inv_preload (st : SdfAtlas) (cs : List Char) (hinv : AtlasInv st)
    (hdim : 0 < st.dim) : AtlasInv (st.preload cs) := by
  induction cs generalizing st with
  | nil => exact hinv
  | cons c cs ih =>
    show AtlasInv (SdfAtlas.preload (st.getOrInsert c).2 cs)
    exact ih _ (inv_getOrInsert st c hinv hdim) (by rw [getOrInsert_dim]; exact hdim)

/-! ### Claim C9: the structural invariant -/

/-- C9: the atlas structural invariant — each slot holds at most one entry
(by construction of the entry table), a codepoint appears in at most one
slot, and the occupied count equals the number of non-empty slots and never
exceeds the capacity `dim²` — is preserved by every operation:
`get_or_insert`, `lookup`, `preload`, `set_params` and `clear` (`peek` and
`contains` take the atlas immutably and cannot change it). -/
theorem C9_structural_invariant (st : SdfAtlas) (ch : Char)
    (p : MetaFontParams) (g : Nat → GlyphSdf) (cs : List Char)
    (hinv : AtlasInv st) (hdim : 0 < st.dim) :
    st.occupied ≤ st.capacity ∧
    AtlasInv (st.lookup ch).2 ∧
    AtlasInv (st.getOrInsert ch).2 ∧
    AtlasInv (st.preload cs) ∧
    AtlasInv st.clear ∧
    AtlasInv (st.setParams p g) := by
  refine ⟨?_, inv_lookup st ch hinv, inv_getOrInsert st ch hinv hdim,
    inv_preload st cs hinv hdim, inv_clear st hinv, inv_setParams st p g hinv⟩
  rw [hinv.2.1]
  calc (st.entries.filter (fun o => o.isSome)).length
      ≤ st.entries.length := List.length_filter_le _ _
    _ = st.capacity := hinv.1

/-- Witness for C9 at a concrete atlas with one occupied and three empty
slots. -/
theorem C9_structural_invariant_witness :
    (AtlasInv exPartial ∧ 0 < exPartial.dim) ∧
    (exPartial.occupied ≤ exPartial.capacity ∧
     AtlasInv (exPartial.lookup 'A').2 ∧
     AtlasInv (exPartial.getOrInsert 'A').2 ∧
     AtlasInv (exPartial.preload ['B']) ∧
     AtlasInv exPartial.clear ∧
     AtlasInv (exPartial.setParams MetaFontParams.sansBold exGen)) :=
  ⟨⟨by decide, by decide⟩,
   C9_structural_invariant exPartial 'A' MetaFontParams.sansBold exGen ['B']
     (by decide) (by decide)⟩

/-! ### Claim C1: LRU eviction -/

/-- C1: LRU eviction correctness.  For every structurally valid atlas with
`u32`-bounded timestamps, a codepoint `ch` that is not cached, and at least
one slot: (full case) if every slot is occupied, `get_or_insert ch` targets
the slot whose entry has the globally smallest `last_used` (ties broken by
the lowest slot index), leaves `occupied` equal to the capacity, and
afterwards the evicted codepoint is no longer contained while `ch` is;
(empty-slot case) if any slot is empty, the first empty slot is used, the
occupied count grows by one, and every previously cached codepoint is still
cached — no eviction happens. -/
theorem C1_lru_eviction (st : SdfAtlas) (ch : Char)
    (hinv : AtlasInv st)
    (hbound : ∀ e ∈ st.entries.filterMap id, e.lastUsed ≤ u32Max)
    (hmiss : st.contains ch = false)
    (hdim : 0 < st.dim) :
    ((∀ o ∈ st.entries, o.isSome = true) →
      ∃ eOld, st.entries.get? (findSlot st.entries) = some (some eOld) ∧
        (∀ e ∈ st.entries.filterMap id, eOld.lastUsed ≤ e.lastUsed) ∧
        (∀ j e, st.entries.get? j = some (some e) → e.lastUsed = eOld.lastUsed →
          findSlot st.entries ≤ j) ∧
        (st.getOrInsert ch).2.occupied = st.capacity ∧
        (st.getOrInsert ch).2.contains eOld.codepoint = false ∧
        (st.getOrInsert ch).2.contains ch = true) ∧
    ((∃ i, st.entries.get? i = some none) →
      st.entries.get? (findSlot st.entries) = some none ∧
      (∀ j, j < findSlot st.entries → st.entries.get? j ≠ some none) ∧
      (st.getOrInsert ch).2.occupied = st.occupied + 1 ∧
      ∀ c, st.contains c = true → (st.getOrInsert ch).2.contains c = true) := by
  obtain ⟨hlen, hocc, hnd⟩ := hinv
  have hne : st.entries ≠ [] := by
    intro h0
    rw [h0] at hlen
    simp only [List.length_nil] at hlen
    exact absurd hlen (ne_of_lt (Nat.mul_pos hdim hdim))
  have hnomatch : ∀ e ∈ st.entries.filterMap id, e.codepoint ≠ ch := by
    intro e he hcp
    have h2 := (contains_eq_true_iff st ch).mpr ⟨e, he, hcp⟩
    rw [hmiss] at h2
    simp at h2
  have hscan : (touchScan ch (st.clock + 1) st.entries).1 = none := by
    rcases touchScan_spec ch (st.clock + 1) st.entries with ⟨h1, _, _⟩ | ⟨i, e, h1, h2, _, _⟩
    · exact h1
    · exact absurd h2 (hnomatch e ((mem_filterMap_id_iff _ _).mpr ⟨i, h1⟩))
  have hmeq := getOrInsert_miss st ch hscan
  have hslotlt : findSlot st.entries < st.entries.length := findSlot_lt_length hne
  constructor
  · intro hfull
    obtain ⟨eOld, hgetOld, hmin, htie⟩ := findSlot_full_spec hne hfull hbound
    have hcpne : eOld.codepoint ≠ ch :=
      hnomatch eOld ((mem_filterMap_id_iff _ _).mpr ⟨findSlot st.entries, hgetOld⟩)
    refine ⟨eOld, hgetOld, hmin, htie, ?_, ?_, ?_⟩
    · rw [hmeq]
      show (if (st.entries.getD (findSlot st.entries) none).isNone
            then st.occupied + 1 else st.occupied) = st.capacity
      have hgd : st.entries.getD (findSlot st.entries) none = some eOld := by
        rw [getD_eq_get?D, hgetOld]
        rfl
      rw [hgd]
      show st.occupied = st.capacity
      have hfilt : st.entries.filter (fun o => o.isSome) = st.entries :=
        List.filter_eq_self.mpr hfull
      rw [hocc, hfilt, hlen]
      rfl
    · rw [hmeq]
      have hpeek : ((st.entries.set (findSlot st.entries)
          (some (insEntry st ch))).findSome? fun o =>
            o.bind fun e => if e.codepoint = eOld.codepoint then some e else none) = none := by
        rw [findSomeMatch_eq_none_iff]
        intro e2 he2
        rcases (mem_filterMap_id_iff _ _).mp he2 with ⟨j, hj⟩
        by_cases hjs : findSlot st.entries = j
        · rw [← hjs, get?_set_self _ hslotlt] at hj
          have he2i : e2 = insEntry st ch := by simpa using hj.symm
          rw [he2i]
          show ch ≠ eOld.codepoint
          exact fun h => hcpne h.symm
        · rw [get?_set_other _ hjs] at hj
          intro hcp2
          exact hjs (nodup_cp_get hnd hgetOld hj hcp2.symm)
      show ((st.entries.set (findSlot st.entries)
          (some (insEntry st ch))).findSome? fun o =>
            o.bind fun e => if e.codepoint = eOld.codepoint then some e else none).isSome
          = false
      rw [hpeek]
      rfl
    · rw [hmeq]
      show ((st.entries.set (findSlot st.entries)
          (some (insEntry st ch))).findSome? fun o =>
            o.bind fun e => if e.codepoint = ch then some e else none).isSome = true
      apply (findSomeMatch_isSome_iff _ _).mpr
      refine ⟨insEntry st ch, (mem_filterMap_id_iff _ _).mpr
        ⟨findSlot st.entries, ?_⟩, rfl⟩
      exact get?_set_self _ hslotlt
  · rintro ⟨i0, hi0⟩
    obtain ⟨k, hk⟩ := firstNoneIdx_exists hi0
    obtain ⟨hk1, hk2⟩ := firstNoneIdx_spec hk
    have hfsk : findSlot st.entries = k := findSlot_of_firstNone hk
    refine ⟨?_, ?_, ?_, ?_⟩
    · rw [hfsk]
      exact hk1
    · rw [hfsk]
      exact hk2
    · rw [hmeq]
      show (if (st.entries.getD (findSlot st.entries) none).isNone
            then st.occupied + 1 else st.occupied) = st.occupied + 1
      have hgd : st.entries.getD (findSlot st.entries) none = none := by
        rw [getD_eq_get?D, hfsk, hk1]
        rfl
      rw [hgd]
      rfl
    · intro c hc
      rcases (contains_eq_true_iff st c).mp hc with ⟨e, he, hcp⟩
      rcases (mem_filterMap_id_iff _ _).mp he with ⟨j, hj⟩
      have hjk : findSlot st.entries ≠ j := by
        intro h
        rw [← h, hfsk, hk1] at hj
        simp at hj
      rw [hmeq]
      show ((st.entries.set (findSlot st.entries)
          (some (insEntry st ch))).findSome? fun o =>
            o.bind fun e => if e.codepoint = c then some e else none).isSome = true
      apply (findSomeMatch_isSome_iff _ _).mpr
      refine ⟨e, (mem_filterMap_id_iff _ _).mpr ⟨j, ?_⟩, hcp⟩
      rw [get?_set_other _ hjk]
      exact hj

/-- Witness for C1 at a full capacity-1 atlas holding `'A'` (timestamp 5):
inserting the fresh codepoint `'B'` evicts `'A'`. -/
theorem C1_lru_eviction_witness :
    (AtlasInv exFull ∧ exFull.contains 'B' = false) ∧
    (∃ eOld, exFull.entries.get? (findSlot exFull.entries) = some (some eOld) ∧
      (∀ e ∈ exFull.entries.filterMap id, eOld.lastUsed ≤ e.lastUsed) ∧
      (∀ j e, exFull.entries.get? j = some (some e) → e.lastUsed = eOld.lastUsed →
        findSlot exFull.entries ≤ j) ∧
      (exFull.getOrInsert 'B').2.occupied = exFull.capacity ∧
      (exFull.getOrInsert 'B').2.contains eOld.codepoint = false ∧
      (exFull.getOrInsert 'B').2.contains 'B' = true) :=
  ⟨⟨by decide, by decide⟩,
   (C1_lru_eviction exFull 'B' (by decide) (by decide) (by decide) (by decide)).1
     (by decide)⟩

end AliceFont
